import Mathlib

/-!
Shallow embedding of `packages/xstate-test/src/index.ts` (the model-based
test generation and execution engine) together with the external
capabilities it consumes (`@xstate/graph` search primitives, the xstate
`State.matches` predicate, `slimChalk` string decoration), which live in
other packages of the repository and are modelled from the spec where a
claim depends on them.

Conventions of the embedding:
  * JavaScript objects/Maps with string keys become association lists
    `List (String × _)`; `Map.set` / record assignment overwrite the
    existing binding in place or append a fresh one at the end, matching
    JS insertion-order iteration.
  * Caller-supplied async procedures (state-test assertions, event
    executors) are opaque tokens of a type parameter; an application
    function (`app`) supplied alongside says what invoking the token with
    its arguments yields (`Except String Unit`: normal completion or a
    rejection carrying the error message).
  * Machine state values and contexts are strings; `JSON.stringify` of a
    string value is modelled by wrapping it in double quotes.
-/

namespace XStateTest

/-- JSON rendering of one of our (string-valued) state values or contexts:
`JSON.stringify` of a string wraps it in double quotes (our modelled values
need no escaping). -/
def stringify (s : String) : String := "\"" ++ s ++ "\""

/-- Test metadata attached to a state node (`TestMeta` in `types.ts`,
reconstructed from its uses in `index.ts`): an optional `test` assertion
procedure (an opaque token of type `τ`) and a `skip` flag (absent in JS is
falsy, hence a plain `Bool`). -/
structure TestMeta (τ : Type) where
  test : Option τ
  skip : Bool
deriving Repr, DecidableEq

/-- An xstate `State` as consumed by `index.ts`: its `value` (serialized
identity), its `context` (absent or a JSON-rendered string), its
`.matches` predicate (the model's own state-matches capability, external
to this package and hence kept opaque as a function), and its `meta`
record keyed by state-node id. `τ` is the type of opaque test-assertion
tokens. -/
structure MState (τ : Type) where
  value : String
  context : Option String
  matchesP : String → Bool
  meta : List (String × TestMeta τ)

/-- A concrete event object `{ type, ...payload }`; following the spec's
tagged-record model, the non-`type` fields are kept as a payload
association list. -/
structure EventObj where
  type : String
  payload : List (String × String)
deriving Repr, DecidableEq

/-- One step of a raw path: the state held before `event` fires
(`Step` in the data model). -/
structure PStep (τ : Type) where
  state : MState τ
  event : EventObj

/-- A raw path as produced by the graph capabilities: ordered steps, the
terminal `state`, and an integer `weight` (step count). -/
structure RawPath (τ : Type) where
  state : MState τ
  steps : List (PStep τ)
  weight : Nat

/-- The planning-level content of a `TestPlan`: the target state and the
paths reaching it (the compiled `test` closure and description are
modelled separately, in the executor section). -/
structure PlanInfo (τ : Type) where
  state : MState τ
  paths : List (RawPath τ)

/-- The `stateValue` argument of `getShortestPathPlansTo` /
`filterPathsTo`: either a literal state value or a predicate over
states. -/
inductive TargetArg (τ : Type) where
  | value (v : String)
  | pred (p : MState τ → Bool)

/-- The predicate `filterPathsTo` builds from its `stateValue` argument:
a function target is applied to the plan's state, a literal target goes
through the state's own `matches`. -/
def targetPred : TargetArg τ → MState τ → Bool
  | .value v, s => s.matchesP v
  | .pred p, s => p s

/-- `TestModel.filterPathsTo`: keep the plans whose terminal state
satisfies the target. -/
def filterPathsTo (t : TargetArg τ) (testPlans : List (PlanInfo τ)) :
    List (PlanInfo τ) :=
  testPlans.filter (fun plan => targetPred t plan.state)

/-- `plan.paths[0].weight` as read by the selection loop of
`getShortestPathPlansTo`. (Search results always carry at least one path;
on an empty `paths` the JS would crash, we default to `0`, and the
defaulting is applied consistently on both sides of every statement
below.) -/
def planWeight (p : PlanInfo τ) : Nat :=
  match p.paths with
  | [] => 0
  | q :: _ => q.weight

/-- One iteration of the `for (const plan of plans)` loop of
`getShortestPathPlansTo`: `none` models the initial `minWeight = Infinity`
(every finite weight beats it). -/
def shortestStep (acc : Option Nat × List (PlanInfo τ)) (plan : PlanInfo τ) :
    Option Nat × List (PlanInfo τ) :=
  let currWeight := planWeight plan
  match acc.1 with
  | none => (some currWeight, [plan])
  | some minWeight =>
    if currWeight < minWeight then (some currWeight, [plan])
    else if currWeight = minWeight then (some minWeight, acc.2 ++ [plan])
    else acc

/-- `TestModel.getShortestPathPlansTo(stateValue)`: filter the
shortest-path plans (`shortestPlans` stands for the result of
`this.getShortestPathPlans()`, whose search backend is an external
capability) to the target, then run the minimum-weight selection loop. -/
def getShortestPathPlansTo (t : TargetArg τ) (shortestPlans : List (PlanInfo τ)) :
    List (PlanInfo τ) :=
  ((filterPathsTo t shortestPlans).foldl shortestStep (none, [])).2

/-- The minimum of `planWeight` over a list, folded from a starting
value. -/
def weightMinFrom (m : Nat) (plans : List (PlanInfo τ)) : Nat :=
  plans.foldl (fun a p => min a (planWeight p)) m

/-- The minimum plan weight of a list of plans (`none` when empty). -/
def minPlanWeight : List (PlanInfo τ) → Option Nat
  | [] => none
  | p :: rest => some (weightMinFrom (planWeight p) rest)

theorem weightMinFrom_cons (m : Nat) (p : PlanInfo τ) (l : List (PlanInfo τ)) :
    weightMinFrom m (p :: l) = weightMinFrom (min m (planWeight p)) l := rfl

theorem weightMinFrom_le (m : Nat) (l : List (PlanInfo τ)) :
    weightMinFrom m l ≤ m := by
  induction l generalizing m with
  | nil => exact Nat.le_refl m
  | cons p rest ih =>
    exact Nat.le_trans (ih (min m (planWeight p))) (Nat.min_le_left _ _)

/-- The selection loop, started after the first plan has (necessarily)
replaced the infinite initial weight, computes the running minimum and
keeps exactly the plans at that minimum, in order. -/
theorem shortestStep_foldl (l : List (PlanInfo τ)) :
    ∀ (m : Nat) (cur : List (PlanInfo τ)),
      l.foldl shortestStep (some m, cur) =
        (some (weightMinFrom m l),
          (if weightMinFrom m l = m then cur else []) ++
            l.filter (fun p => planWeight p = weightMinFrom m l)) := by
  induction l with
  | nil => intro m cur; simp [weightMinFrom]
  | cons p rest ih =>
    intro m cur
    have hmin : weightMinFrom m (p :: rest) = weightMinFrom (min m (planWeight p)) rest :=
      weightMinFrom_cons m p rest
    rcases Nat.lt_trichotomy (planWeight p) m with hlt | heqw | hgt
    · have hstep : shortestStep (some m, cur) p = (some (planWeight p), [p]) := by
        simp [shortestStep, hlt]
      have hmm : min m (planWeight p) = planWeight p := Nat.min_eq_right (Nat.le_of_lt hlt)
      rw [List.foldl_cons, hstep, ih (planWeight p) [p], hmin, hmm]
      have hle : weightMinFrom (planWeight p) rest ≤ planWeight p :=
        weightMinFrom_le _ _
      by_cases heq : weightMinFrom (planWeight p) rest = planWeight p
      · have hne' : planWeight p ≠ m := Nat.ne_of_lt hlt
        simp [heq, hne', List.filter_cons]
      · have hne : weightMinFrom (planWeight p) rest ≠ m := by
          intro h
          exact absurd h (Nat.ne_of_lt (Nat.lt_of_le_of_lt hle hlt))
        have hpne : ¬ (planWeight p = weightMinFrom (planWeight p) rest) :=
          fun h => heq h.symm
        simp [heq, hne, List.filter_cons, hpne]
    · have hstep : shortestStep (some m, cur) p = (some m, cur ++ [p]) := by
        simp [shortestStep, heqw, Nat.lt_irrefl]
      have hmm : min m (planWeight p) = m := by rw [heqw, Nat.min_self]
      rw [List.foldl_cons, hstep, ih m (cur ++ [p]), hmin, hmm]
      by_cases heq : weightMinFrom m rest = m
      · have hpw : planWeight p = weightMinFrom m rest := by rw [heq, heqw]
        simp [heq, List.filter_cons, hpw]
      · have hpw : ¬ (planWeight p = weightMinFrom m rest) := by
          rw [heqw]; exact fun h => heq h.symm
        simp [heq, List.filter_cons, hpw]
    · have hstep : shortestStep (some m, cur) p = (some m, cur) := by
        have h1 : ¬ planWeight p < m := Nat.not_lt_of_gt hgt
        have h2 : ¬ planWeight p = m := Nat.ne_of_gt hgt
        simp [shortestStep, h1, h2]
      have hmm : min m (planWeight p) = m := Nat.min_eq_left (Nat.le_of_lt hgt)
      rw [List.foldl_cons, hstep, ih m cur, hmin, hmm]
      have hle : weightMinFrom m rest ≤ m := weightMinFrom_le _ _
      have hpw : ¬ (planWeight p = weightMinFrom m rest) := by
        intro h
        exact Nat.lt_irrefl _ (Nat.lt_of_le_of_lt (h ▸ hle) hgt)
      simp [List.filter_cons, hpw]

theorem weightMinFrom_le_of_mem (m : Nat) (l : List (PlanInfo τ)) :
    ∀ q ∈ l, weightMinFrom m l ≤ planWeight q := by
  induction l generalizing m with
  | nil => intro q hq; exact absurd hq (List.not_mem_nil q)
  | cons p rest ih =>
    intro q hq
    rcases List.mem_cons.mp hq with h | h
    · subst h
      rw [weightMinFrom_cons]
      exact Nat.le_trans (weightMinFrom_le _ _) (Nat.min_le_right _ _)
    · exact ih (min m (planWeight p)) q h

theorem getShortestPathPlansTo_eq_filter (t : TargetArg τ) (shortestPlans : List (PlanInfo τ)) :
    getShortestPathPlansTo t shortestPlans =
      (filterPathsTo t shortestPlans).filter
        (fun p => some (planWeight p) = minPlanWeight (filterPathsTo t shortestPlans)) := by
  unfold getShortestPathPlansTo
  cases hf : filterPathsTo t shortestPlans with
  | nil => simp
  | cons p rest =>
    have hstep : shortestStep (τ := τ) (none, []) p = (some (planWeight p), [p]) := rfl
    rw [List.foldl_cons, hstep, shortestStep_foldl]
    simp only [minPlanWeight, Option.some.injEq]
    by_cases heq : weightMinFrom (planWeight p) rest = planWeight p
    · simp [heq, List.filter_cons]
    · have hpne : ¬ (planWeight p = weightMinFrom (planWeight p) rest) :=
        fun h => heq h.symm
      simp [heq, List.filter_cons, hpne]

theorem minPlanWeight_le (l : List (PlanInfo τ)) (w : Nat)
    (h : minPlanWeight l = some w) : ∀ q ∈ l, w ≤ planWeight q := by
  cases l with
  | nil => simp [minPlanWeight] at h
  | cons p rest =>
    have hw : w = weightMinFrom (planWeight p) rest := by
      simp [minPlanWeight] at h; exact h.symm
    intro q hq
    rcases List.mem_cons.mp hq with hqe | hqm
    · subst hqe; rw [hw]; exact weightMinFrom_le _ _
    · rw [hw]
      have := weightMinFrom_le_of_mem (τ := τ) (planWeight p) rest q hqm
      exact this

/-- A state node of the model, as far as this package consumes it: its
id (plus nothing else; the caller's coverage filter predicate observes
the node itself). -/
structure StateNode where
  id : String
deriving Repr, DecidableEq

/-- Modelled from the spec: the state-machine capability consumed by the
test model — "an entity that, given a current state and event, yields a
next state; exposes its full state-node set" (§1 OUT OF SCOPE). The
machine itself lives in the `xstate` core package, outside this one. -/
structure MachineM (τ : Type) where
  initialState : MState τ
  transition : MState τ → EventObj → MState τ
  stateNodes : List StateNode

/-- The ordered (state-before-event, event) steps produced by replaying a
literal event sequence from a state. -/
def replaySteps (tr : MState τ → EventObj → MState τ) :
    MState τ → List EventObj → List (PStep τ)
  | _, [] => []
  | s, e :: rest => ⟨s, e⟩ :: replaySteps tr (tr s e) rest

/-- Modelled from the spec: the external `@xstate/graph`
`getPathFromEvents` capability — "a path induced by replaying a literal
event sequence ... paths of ordered (state, event) steps with an
associated path weight (step count)" (§1), "replay a literal event
sequence against the model" (§4.2). -/
def getPathFromEvents (machine : MachineM τ) (events : List EventObj) :
    RawPath τ :=
  { state := events.foldl machine.transition machine.initialState
    steps := replaySteps machine.transition machine.initialState events
    weight := events.length }

/-- `TestModel.getPlanFromEvents(events, { target })`: obtain the replayed
path, throw when its terminal state does not match `target` (the message
quotes the stringified actual terminal value and the stringified target),
otherwise compile exactly one plan keyed by `JSON.stringify` of the
terminal state's value and holding the single replayed path. The `.ok`
payload is the pair (object key, plan). -/
def getPlanFromEvents (machine : MachineM τ) (events : List EventObj)
    (target : String) : Except String (String × PlanInfo τ) :=
  let path := getPathFromEvents machine events
  if !(path.state.matchesP target) then
    .error ("The last state " ++ stringify path.state.value ++
      " does not match the target: " ++ stringify target)
  else
    .ok (stringify path.state.value, { state := path.state, paths := [path] })

/-- A minimal concrete state (trivial metadata, literal-equality
`matches`) used to exercise the planner on concrete inputs. -/
def stubState (v : String) : MState Unit :=
  { value := v, context := none, matchesP := fun s => s == v, meta := [] }

/-- A concrete single-path plan of the given terminal state value and
weight, used to exercise the planner on concrete inputs. -/
def stubPlan (v : String) (w : Nat) : PlanInfo Unit :=
  { state := stubState v
    paths := [{ state := stubState v, steps := [], weight := w }] }

/-- C1: `getShortestPathPlansTo(target)` first filters the shortest-path
plans to those whose terminal state matches `target`, then returns exactly
the filtered plans whose weight equals the minimum weight among the
filtered plans; ties all stay, and every returned plan has equal, minimal
weight. -/
theorem C1_getShortestPathPlansTo_spec (t : TargetArg τ)
    (shortestPlans : List (PlanInfo τ)) :
    getShortestPathPlansTo t shortestPlans =
      (filterPathsTo t shortestPlans).filter
        (fun p => some (planWeight p) = minPlanWeight (filterPathsTo t shortestPlans))
    ∧ (∀ p ∈ getShortestPathPlansTo t shortestPlans,
        ∀ q ∈ filterPathsTo t shortestPlans, planWeight p ≤ planWeight q)
    ∧ (∀ p ∈ getShortestPathPlansTo t shortestPlans,
        ∀ q ∈ getShortestPathPlansTo t shortestPlans,
          planWeight p = planWeight q) := by
  have heq := getShortestPathPlansTo_eq_filter t shortestPlans
  have hmem : ∀ p ∈ getShortestPathPlansTo t shortestPlans,
      some (planWeight p) = minPlanWeight (filterPathsTo t shortestPlans) := by
    intro p hp
    rw [heq] at hp
    have := List.of_mem_filter hp
    simpa using this
  refine ⟨heq, ?_, ?_⟩
  · intro p hp q hq
    have h1 := hmem p hp
    exact minPlanWeight_le _ _ h1.symm q hq
  · intro p hp q hq
    have h1 := hmem p hp
    have h2 := hmem q hq
    have : some (planWeight p) = some (planWeight q) := by rw [h1, h2]
    exact Option.some.inj this

/-- Witness for C1 at a concrete input: target `"a"` over plans of
weights 2, 5 (for `"b"`), 1 and 1; the two weight-1 plans are returned and
are bounded by every filtered plan's weight. -/
theorem C1_getShortestPathPlansTo_witness :
    getShortestPathPlansTo (TargetArg.value "a")
        [stubPlan "a" 2, stubPlan "b" 5, stubPlan "a" 1, stubPlan "a" 1] =
      [stubPlan "a" 1, stubPlan "a" 1]
    ∧ planWeight (stubPlan "a" 1) ≤ planWeight (stubPlan "a" 2) := by
  constructor
  · rfl
  · exact (C1_getShortestPathPlansTo_spec (TargetArg.value "a")
        [stubPlan "a" 2, stubPlan "b" 5, stubPlan "a" 1, stubPlan "a" 1]).2.1
      (stubPlan "a" 1)
      (by rw [show getShortestPathPlansTo (TargetArg.value "a")
            [stubPlan "a" 2, stubPlan "b" 5, stubPlan "a" 1, stubPlan "a" 1] =
            [stubPlan "a" 1, stubPlan "a" 1] from rfl]
          exact List.Mem.head _)
      (stubPlan "a" 2)
      (by rw [show filterPathsTo (TargetArg.value "a")
            [stubPlan "a" 2, stubPlan "b" 5, stubPlan "a" 1, stubPlan "a" 1] =
            [stubPlan "a" 2, stubPlan "a" 1, stubPlan "a" 1] from rfl]
          exact List.Mem.head _)


/-- C2: `getPlanFromEvents(events, {target})` throws exactly when the
state reached by replaying `events` (the fold of the machine's transition
over the events) does not match `target`; the thrown message embeds both
the stringified actual terminal value and the stringified target. On a
match it returns exactly one plan, keyed by the terminal state's
serialized value, whose single path is the replayed path. -/
theorem C2_getPlanFromEvents_spec (machine : MachineM τ)
    (events : List EventObj) (target : String) :
    (getPathFromEvents machine events).state =
      events.foldl machine.transition machine.initialState
    ∧ ((getPathFromEvents machine events).state.matchesP target = false →
        getPlanFromEvents machine events target =
          .error ("The last state " ++
            stringify (events.foldl machine.transition machine.initialState).value ++
            " does not match the target: " ++ stringify target))
    ∧ ((getPathFromEvents machine events).state.matchesP target = true →
        getPlanFromEvents machine events target =
          .ok (stringify (getPathFromEvents machine events).state.value,
            { state := (getPathFromEvents machine events).state
              paths := [getPathFromEvents machine events] })) := by
  refine ⟨rfl, ?_, ?_⟩
  · intro h
    have h' : (events.foldl machine.transition machine.initialState).matchesP target
        = false := h
    simp [getPlanFromEvents, getPathFromEvents, h']
  · intro h
    simp [getPlanFromEvents, h]

/-- The `TOGGLE` event of the spec's concrete toggle scenario. -/
def toggleEvent : EventObj := { type := "TOGGLE", payload := [] }

/-- The spec's two-state toggle machine (`inactive` ⇄ `active` via
`TOGGLE`), built over `stubState`. -/
def toggleMachine : MachineM Unit :=
  { initialState := stubState "inactive"
    transition := fun s e =>
      if e.type == "TOGGLE" then
        if s.value == "inactive" then stubState "active" else stubState "inactive"
      else s
    stateNodes := [{ id := "toggle" }, { id := "toggle.inactive" },
      { id := "toggle.active" }] }

/-- Witness for C2 on the toggle scenario: replaying `[TOGGLE]` with
target `active` succeeds with the single replayed path, and with target
`inactive` throws the mismatch error embedding both values. -/
theorem C2_getPlanFromEvents_witness :
    getPlanFromEvents toggleMachine [toggleEvent] "active" =
      .ok (stringify (getPathFromEvents toggleMachine [toggleEvent]).state.value,
        { state := (getPathFromEvents toggleMachine [toggleEvent]).state
          paths := [getPathFromEvents toggleMachine [toggleEvent]] })
    ∧ getPlanFromEvents toggleMachine [toggleEvent] "inactive" =
      .error ("The last state \"active\" does not match the target: \"inactive\"") := by
  constructor
  · exact (C2_getPlanFromEvents_spec toggleMachine [toggleEvent] "active").2.2 rfl
  · exact (C2_getPlanFromEvents_spec toggleMachine [toggleEvent] "inactive").2.1 rfl

/-- Lookup in a string-keyed association list standing for a JS record or
`Map` (keys are unique in both, so the first binding is the binding). -/
def recGet (rec : List (String × Nat)) (k : String) : Option Nat :=
  (rec.find? (fun p => p.1 == k)).map (fun p => p.2)

/-- JS record assignment / `Map.set`: overwrite the binding in place when
the key exists, append a fresh binding at the end otherwise (JS iteration
order is insertion order). -/
def recSet : List (String × Nat) → String → Nat → List (String × Nat)
  | [], k, v => [(k, v)]
  | p :: rest, k, v =>
    if p.1 == k then (k, v) :: rest else p :: recSet rest k v

theorem recGet_recSet (rec : List (String × Nat)) (k v j) :
    recGet (recSet rec k v) j = if j = k then some v else recGet rec j := by
  induction rec with
  | nil =>
    by_cases h : j = k
    · simp [recSet, recGet, h]
    · have : (k == j) = false := by
        simp [beq_iff_eq]; exact fun he => h he.symm
      simp [recSet, recGet, this, List.find?, h]
  | cons p rest ih =>
    by_cases hpk : p.1 = k
    · have hb : (p.1 == k) = true := beq_iff_eq.mpr hpk
      by_cases h : j = k
      · simp [recSet, recGet, hb, h, List.find?]
      · have hkj : (k == j) = false := by
          simp [beq_iff_eq]; exact fun he => h he.symm
        have hpj : (p.1 == j) = false := by
          simp [beq_iff_eq]; rw [hpk]; exact fun he => h he.symm
        simp [recSet, recGet, hb, h, hkj, hpj, List.find?]
    · have hb : (p.1 == k) = false := by simp [beq_iff_eq]; exact hpk
      by_cases hpj : p.1 = j
      · have hbj : (p.1 == j) = true := beq_iff_eq.mpr hpj
        have hjk : j ≠ k := fun he => hpk (hpj.trans he)
        simp [recSet, recGet, hb, hbj, hjk, List.find?]
      · have hbj : (p.1 == j) = false := by simp [beq_iff_eq]; exact hpj
        simp only [recSet, hb, if_neg, Bool.false_eq_true, ite_false]
        simp only [recGet, List.find?, hbj]
        exact ih

/-- The accumulated coverage of a `TestModel` instance
(`TestModelCoverage` in `types.ts`): execution counts per state-node id
and per transition (the latter is declared but never written by
`index.ts`). -/
structure TestModelCoverage where
  stateNodes : List (String × Nat)
  transitions : List (String × Nat)
deriving Repr, DecidableEq

/-- `TestModelOptions` as used by `index.ts`: the event-test
configuration, keyed by event type. `ε` is the type of opaque executor
tokens. -/
structure EventCaseRecord (ε : Type) where
  exec : Option ε
  cases : Option (List (List (String × String)))

/-- One entry of the event-test configuration: either a bare executor
function or a record `{ exec?, cases? }`. -/
inductive EventConfig (ε : Type) where
  | fn (exec : ε)
  | record (r : EventCaseRecord ε)

/-- The options record of a `TestModel` (its only field is `events`). -/
structure TestModelOptions (ε : Type) where
  events : List (String × EventConfig ε)

/-- The `TestModel` instance state: the machine, the merged options and
the instance-owned mutable coverage accumulator. -/
structure TModel (τ ε : Type) where
  machine : MachineM τ
  options : TestModelOptions ε
  coverage : TestModelCoverage

/-- `getStateNodes(this.machine)` filtered by the caller's optional
coverage predicate, as computed inside `getCoverage`. -/
def filteredStateNodes (model : TModel τ ε)
    (filter : Option (StateNode → Bool)) : List StateNode :=
  match filter with
  | some f => model.machine.stateNodes.filter f
  | none => model.machine.stateNodes

/-- `TestModel.getCoverage(options?)`: zero-initialize a record over the
(optionally filtered) declared state-node ids, then overlay every
accumulated counter of the instance (the overlay loop runs over all keys
of `this.coverage.stateNodes`, filtered or not). -/
def getCoverage (model : TModel τ ε)
    (filter : Option (StateNode → Bool)) : List (String × Nat) :=
  model.coverage.stateNodes.foldl (fun acc p => recSet acc p.1 p.2)
    ((filteredStateNodes model filter).foldl (fun acc sn => recSet acc sn.id 0) [])

/-- The `missingStateNodes` list computed inside `testCoverage`: the keys
of the coverage record whose count is falsy (i.e. zero). -/
def missingStateNodes (model : TModel τ ε)
    (filter : Option (StateNode → Bool)) : List String :=
  ((getCoverage model filter).map (fun p => p.1)).filter
    (fun id => recGet (getCoverage model filter) id == some 0)

/-- `TestModel.testCoverage(options?)`: compute the coverage record and
throw an aggregated error naming every id whose count is falsy (zero). -/
def testCoverage (model : TModel τ ε)
    (filter : Option (StateNode → Bool)) : Except String Unit :=
  if (missingStateNodes model filter).length ≠ 0 then
    .error ("Missing coverage for state nodes:\n" ++
      String.intercalate "\n"
        ((missingStateNodes model filter).map (fun id => "\t" ++ id)))
  else
    .ok ()

theorem recGet_zeroInit (l : List StateNode) (init : List (String × Nat)) (j : String) :
    recGet (l.foldl (fun acc sn => recSet acc sn.id 0) init) j =
      if l.any (fun sn => sn.id == j) then some 0 else recGet init j := by
  induction l generalizing init with
  | nil => simp
  | cons sn rest ih =>
    rw [List.foldl_cons, ih]
    by_cases hrest : rest.any (fun sn => sn.id == j)
    · simp [hrest]
    · by_cases hsn : sn.id = j
      · simp [hrest, hsn, recGet_recSet]
      · have : (sn.id == j) = false := by simp [beq_iff_eq]; exact hsn
        have hj : j ≠ sn.id := fun he => hsn he.symm
        simp [hrest, this, recGet_recSet, hj]

theorem recGet_overlay (cov : List (String × Nat))
    (hnodup : (cov.map (fun p => p.1)).Nodup) (init : List (String × Nat)) (j : String) :
    recGet (cov.foldl (fun acc p => recSet acc p.1 p.2) init) j =
      match recGet cov j with
      | some v => some v
      | none => recGet init j := by
  induction cov generalizing init with
  | nil => simp [recGet]
  | cons p rest ih =>
    have hnd : (rest.map (fun p => p.1)).Nodup := (List.nodup_cons.mp hnodup).2
    have hnotin : p.1 ∉ rest.map (fun p => p.1) := (List.nodup_cons.mp hnodup).1
    rw [List.foldl_cons, ih hnd]
    by_cases hj : j = p.1
    · have hfind : rest.find? (fun q => q.1 == j) = none := by
        apply List.find?_eq_none.mpr
        intro x hx
        simp only [beq_iff_eq]
        intro he
        apply hnotin
        rw [← hj, ← he]
        exact List.mem_map_of_mem (fun p => p.1) hx
      have hrest : recGet rest j = none := by simp [recGet, hfind]
      have hb : (p.1 == j) = true := beq_iff_eq.mpr hj.symm
      have hcons : recGet (p :: rest) j = some p.2 := by
        simp [recGet, List.find?, hb]
      rw [hrest, hcons]
      simp [recGet_recSet, hj]
    · have hb : (p.1 == j) = false := by
        simp [beq_iff_eq]; exact fun he => hj he.symm
      have hcons : recGet (p :: rest) j = recGet rest j := by
        simp [recGet, List.find?, hb]
      rw [hcons, recGet_recSet, if_neg hj]

theorem recGet_mem_keys (rec : List (String × Nat)) (j : String) (v : Nat)
    (h : recGet rec j = some v) : j ∈ rec.map (fun p => p.1) := by
  unfold recGet at h
  cases hf : rec.find? (fun p => p.1 == j) with
  | none => rw [hf] at h; simp at h
  | some x =>
    have hx : x ∈ rec := List.mem_of_find?_eq_some hf
    have hxj := List.find?_some hf
    have hx1 : x.1 = j := by simpa using hxj
    rw [← hx1]
    exact List.mem_map_of_mem (fun p => p.1) hx

/-- The concrete model used to exercise the coverage accounting: declared
nodes `a` and `b`, an accumulated counter of 2 for `a`, no events. -/
def covModelC3 : TModel Unit Unit :=
  { machine :=
      { initialState := stubState "inactive"
        transition := fun s _ => s
        stateNodes := [{ id := "a" }, { id := "b" }] }
    options := { events := [] }
    coverage := { stateNodes := [("a", 2)], transitions := [] } }

/-- Counterexample to C3 as stated: the filter excludes node `a`, yet the
result still contains `a` (with its accumulated count 2), because the
overlay loop writes back every accumulated counter regardless of the
filter. -/
theorem C3_getCoverage_counterexample :
    ((fun sn : StateNode => !(sn.id == "a")) { id := "a" } = false)
    ∧ recGet (getCoverage covModelC3 (some (fun sn => !(sn.id == "a")))) "a"
        = some 2 :=
  ⟨rfl, rfl⟩

/-- C3 (amended): `getCoverage` zero-initializes the filtered id set and
then overlays the instance's accumulated counters over it; an id is
present exactly when it survives the filter or carries an accumulated
counter, with the accumulated count taking precedence — so ids excluded
by the filter still appear whenever the instance has an accumulated
counter for them. (The accumulated `Map` has unique keys by construction,
hence the `Nodup` hypothesis.) -/
theorem C3_getCoverage_amended (model : TModel τ ε)
    (filter : Option (StateNode → Bool))
    (hnodup : (model.coverage.stateNodes.map (fun p => p.1)).Nodup)
    (j : String) :
    recGet (getCoverage model filter) j =
      match recGet model.coverage.stateNodes j with
      | some v => some v
      | none =>
        if (filteredStateNodes model filter).any (fun sn => sn.id == j)
        then some 0 else none := by
  unfold getCoverage
  rw [recGet_overlay _ hnodup, recGet_zeroInit]
  cases recGet model.coverage.stateNodes j <;> simp [recGet]

/-- Witness for the amended C3 at the concrete model: the excluded id `a`
appears with its accumulated count. -/
theorem C3_getCoverage_amended_witness :
    recGet (getCoverage covModelC3 (some (fun sn => !(sn.id == "a")))) "a"
      = some 2 := by
  have h := C3_getCoverage_amended covModelC3 (some (fun sn => !(sn.id == "a")))
    (by simp [covModelC3]) "a"
  rw [h]
  rfl

/-- C4: `testCoverage` throws exactly when some id of the computed
coverage record has count zero; the zero-count ids are exactly the
`missingStateNodes` the thrown message aggregates; and when no count is
zero it returns normally. (The function reads but never writes the
instance's accumulated coverage: it is a pure function of the model here,
so the coverage map is unchanged by construction.) -/
theorem C4_testCoverage_spec (model : TModel τ ε)
    (filter : Option (StateNode → Bool)) :
    ((∃ msg, testCoverage model filter = .error msg) ↔
      ∃ id, recGet (getCoverage model filter) id = some 0)
    ∧ (∀ id, recGet (getCoverage model filter) id = some 0 ↔
        id ∈ missingStateNodes model filter)
    ∧ (∀ msg, testCoverage model filter = .error msg →
        msg = "Missing coverage for state nodes:\n" ++
          String.intercalate "\n"
            ((missingStateNodes model filter).map (fun id => "\t" ++ id)))
    ∧ (missingStateNodes model filter = [] →
        testCoverage model filter = .ok ()) := by
  have hmem : ∀ id, recGet (getCoverage model filter) id = some 0 ↔
      id ∈ missingStateNodes model filter := by
    intro id
    constructor
    · intro h
      unfold missingStateNodes
      apply List.mem_filter.mpr
      exact ⟨recGet_mem_keys _ _ _ h, by simp [h]⟩
    · intro h
      have := (List.mem_filter.mp h).2
      simpa using this
  refine ⟨?_, hmem, ?_, ?_⟩
  · constructor
    · rintro ⟨msg, hmsg⟩
      by_cases hlen : (missingStateNodes model filter).length ≠ 0
      · cases hnil : missingStateNodes model filter with
        | nil => rw [hnil] at hlen; simp at hlen
        | cons id rest =>
          exact ⟨id, (hmem id).mpr (hnil ▸ List.Mem.head rest)⟩
      · unfold testCoverage at hmsg
        rw [if_neg hlen] at hmsg
        exact absurd hmsg (by simp)
    · rintro ⟨id, hid⟩
      have hin := (hmem id).mp hid
      have hlen : (missingStateNodes model filter).length ≠ 0 := by
        intro h
        rw [List.length_eq_zero.mp h] at hin
        exact absurd hin (List.not_mem_nil id)
      exact ⟨_, by unfold testCoverage; rw [if_pos hlen]⟩
  · intro msg hmsg
    by_cases hlen : (missingStateNodes model filter).length ≠ 0
    · unfold testCoverage at hmsg
      rw [if_pos hlen] at hmsg
      exact (Except.error.inj hmsg).symm
    · unfold testCoverage at hmsg
      rw [if_neg hlen] at hmsg
      exact absurd hmsg (by simp)
  · intro hnil
    unfold testCoverage
    rw [if_neg (by rw [hnil]; simp)]

/-- A fully covered variant of the concrete coverage model. -/
def covModelOk : TModel Unit Unit :=
  { covModelC3 with
    coverage := { stateNodes := [("a", 1), ("b", 3)], transitions := [] } }

/-- Witness for C4: on `covModelC3` (node `b` uncovered) `testCoverage`
throws the aggregated message naming `b`; on the fully covered variant it
returns normally. -/
theorem C4_testCoverage_witness :
    testCoverage covModelC3 none = .error "Missing coverage for state nodes:\n\tb"
    ∧ "Missing coverage for state nodes:\n\tb" =
        "Missing coverage for state nodes:\n" ++
          String.intercalate "\n"
            ((missingStateNodes covModelC3 none).map (fun id => "\t" ++ id))
    ∧ testCoverage covModelOk none = .ok () := by
  refine ⟨rfl, ?_, ?_⟩
  · exact (C4_testCoverage_spec covModelC3 none).2.2.1 _ rfl
  · exact (C4_testCoverage_spec covModelOk none).2.2.2 rfl


/-- Prefix a step's id onto the invocation trace of a `testState` loop
result. -/
def consTrace (id : String)
    (out : List (String × Nat) × List String × Except String Unit) :
    List (String × Nat) × List String × Except String Unit :=
  (out.1, id :: out.2.1, out.2.2)

/-- The body of `TestModel.testState(state, testContext)`: the
`for (const id of Object.keys(state.meta))` loop. For each entry whose
metadata declares a `test` function and is not marked `skip`, the
coverage counter for that id is set to `(get(id) || 0) + 1` and then the
assertion is invoked with `(testContext, state)` (via `app`, which
interprets an opaque assertion token); a rejection aborts the loop and is
propagated. Returns the updated coverage `Map`, the ids whose assertion
was invoked (in order), and the outcome. -/
def testStateGo (app : τ → γ → MState τ → Except String Unit)
    (ctx : γ) (state : MState τ) :
    List (String × TestMeta τ) → List (String × Nat) →
      List (String × Nat) × List String × Except String Unit
  | [], cov => (cov, [], .ok ())
  | (id, stateNodeMeta) :: rest, cov =>
    match stateNodeMeta.test, stateNodeMeta.skip with
    | some t, false =>
      match app t ctx state with
      | .ok _ =>
        consTrace id (testStateGo app ctx state rest
          (recSet cov id ((recGet cov id).getD 0 + 1)))
      | .error e =>
        (recSet cov id ((recGet cov id).getD 0 + 1), [id], .error e)
    | _, _ => testStateGo app ctx state rest cov

/-- `TestModel.testState(state, testContext)` over the instance's
coverage `Map`. -/
def testState (app : τ → γ → MState τ → Except String Unit)
    (cov : List (String × Nat)) (state : MState τ) (ctx : γ) :
    List (String × Nat) × List String × Except String Unit :=
  testStateGo app ctx state state.meta cov

/-- The entries of a metadata record that `testState` acts on: those with
a `test` function and no `skip` mark. -/
def activeMeta (entries : List (String × TestMeta τ)) :
    List (String × TestMeta τ) :=
  entries.filter (fun p => p.2.test.isSome && !p.2.skip)

theorem testStateGo_cons_none {m : TestMeta τ}
    (app : τ → γ → MState τ → Except String Unit) (ctx : γ) (state : MState τ)
    (id : String) (rest : List (String × TestMeta τ)) (cov : List (String × Nat))
    (htest : m.test = none) :
    testStateGo app ctx state ((id, m) :: rest) cov =
      testStateGo app ctx state rest cov := by
  obtain ⟨mt, ms⟩ := m
  have h1 : mt = none := htest
  subst h1
  cases ms <;> rfl

theorem testStateGo_cons_skip {m : TestMeta τ}
    (app : τ → γ → MState τ → Except String Unit) (ctx : γ) (state : MState τ)
    (id : String) (rest : List (String × TestMeta τ)) (cov : List (String × Nat))
    (hskip : m.skip = true) :
    testStateGo app ctx state ((id, m) :: rest) cov =
      testStateGo app ctx state rest cov := by
  obtain ⟨mt, ms⟩ := m
  have h2 : ms = true := hskip
  subst h2
  cases mt <;> rfl

theorem testStateGo_cons_ok {m : TestMeta τ} {t : τ}
    (app : τ → γ → MState τ → Except String Unit) (ctx : γ) (state : MState τ)
    (id : String) (rest : List (String × TestMeta τ)) (cov : List (String × Nat))
    (htest : m.test = some t) (hskip : m.skip = false)
    (happ : app t ctx state = .ok ()) :
    testStateGo app ctx state ((id, m) :: rest) cov =
      consTrace id (testStateGo app ctx state rest
        (recSet cov id ((recGet cov id).getD 0 + 1))) := by
  obtain ⟨mt, ms⟩ := m
  have h1 : mt = some t := htest
  have h2 : ms = false := hskip
  subst h1; subst h2
  show (match app t ctx state with
    | .ok _ =>
      consTrace id (testStateGo app ctx state rest
        (recSet cov id ((recGet cov id).getD 0 + 1)))
    | .error e =>
      (recSet cov id ((recGet cov id).getD 0 + 1), [id], .error e)) = _
  rw [happ]

theorem testStateGo_cons_err {m : TestMeta τ} {t : τ} {e : String}
    (app : τ → γ → MState τ → Except String Unit) (ctx : γ) (state : MState τ)
    (id : String) (rest : List (String × TestMeta τ)) (cov : List (String × Nat))
    (htest : m.test = some t) (hskip : m.skip = false)
    (happ : app t ctx state = .error e) :
    testStateGo app ctx state ((id, m) :: rest) cov =
      (recSet cov id ((recGet cov id).getD 0 + 1), [id], .error e) := by
  obtain ⟨mt, ms⟩ := m
  have h1 : mt = some t := htest
  have h2 : ms = false := hskip
  subst h1; subst h2
  show (match app t ctx state with
    | .ok _ =>
      consTrace id (testStateGo app ctx state rest
        (recSet cov id ((recGet cov id).getD 0 + 1)))
    | .error e =>
      (recSet cov id ((recGet cov id).getD 0 + 1), [id], .error e)) = _
  rw [happ]

theorem activeMeta_cons_inactive {m : TestMeta τ} (id : String)
    (rest : List (String × TestMeta τ)) (h : m.test = none ∨ m.skip = true) :
    activeMeta ((id, m) :: rest) = activeMeta rest := by
  rcases h with h | h <;> simp [activeMeta, List.filter_cons, h]

theorem activeMeta_cons_active {m : TestMeta τ} {t : τ} (id : String)
    (rest : List (String × TestMeta τ)) (htest : m.test = some t)
    (hskip : m.skip = false) :
    activeMeta ((id, m) :: rest) = (id, m) :: activeMeta rest := by
  simp [activeMeta, List.filter_cons, htest, hskip]

theorem mem_activeMeta_keys {entries : List (String × TestMeta τ)} {j : String}
    (h : j ∈ (activeMeta entries).map (fun p => p.1)) :
    j ∈ entries.map (fun p => p.1) := by
  rcases List.mem_map.mp h with ⟨x, hx, hxj⟩
  rw [← hxj]
  exact List.mem_map_of_mem (fun p => p.1) (List.mem_of_mem_filter hx)

theorem nodup_key_eq {entries : List (String × TestMeta τ)}
    (h : (entries.map (fun p => p.1)).Nodup) {id : String} {m m' : TestMeta τ}
    (h1 : (id, m) ∈ entries) (h2 : (id, m') ∈ entries) : m = m' := by
  induction entries with
  | nil => exact absurd h1 (List.not_mem_nil _)
  | cons p rest ih =>
    have hnotin : p.1 ∉ rest.map (fun p => p.1) := (List.nodup_cons.mp h).1
    have hnd : (rest.map (fun p => p.1)).Nodup := (List.nodup_cons.mp h).2
    rcases List.mem_cons.mp h1 with e1 | e1 <;> rcases List.mem_cons.mp h2 with e2 | e2
    · exact congrArg Prod.snd (e1.trans e2.symm)
    · exfalso
      apply hnotin
      rw [← e1]
      exact List.mem_map_of_mem (fun p => p.1) e2
    · exfalso
      apply hnotin
      rw [← e2]
      exact List.mem_map_of_mem (fun p => p.1) e1
    · exact ih hnd e1 e2

theorem testStateGo_frame (app : τ → γ → MState τ → Except String Unit)
    (ctx : γ) (state : MState τ) (entries : List (String × TestMeta τ)) :
    ∀ cov,
      (∀ i ∈ (testStateGo app ctx state entries cov).2.1,
        i ∈ (activeMeta entries).map (fun p => p.1))
      ∧ (∀ j, j ∉ (activeMeta entries).map (fun p => p.1) →
          recGet (testStateGo app ctx state entries cov).1 j = recGet cov j) := by
  induction entries with
  | nil =>
    intro cov
    exact ⟨fun i hi => absurd hi (List.not_mem_nil i), fun j _ => rfl⟩
  | cons p rest ih =>
    intro cov
    obtain ⟨id, m⟩ := p
    rcases htest : m.test with _ | t
    · rw [testStateGo_cons_none app ctx state id rest cov htest,
        activeMeta_cons_inactive id rest (Or.inl htest)]
      exact ih cov
    · rcases hskip : m.skip with _ | _
      · rw [activeMeta_cons_active id rest htest hskip]
        rcases happ : app t ctx state with e | u
        · rw [testStateGo_cons_err app ctx state id rest cov htest hskip happ]
          constructor
          · intro i hi
            have hi' : i = id := by simpa using hi
            rw [hi']
            exact List.mem_map_of_mem (fun p : String × TestMeta τ => p.1) (List.Mem.head _)
          · intro j hj
            have hjid : j ≠ id := by
              intro h
              exact hj (h ▸ List.mem_map_of_mem (fun p : String × TestMeta τ => p.1) (List.Mem.head _))
            simp [recGet_recSet, hjid]
        · obtain ⟨⟩ := u
          rw [testStateGo_cons_ok app ctx state id rest cov htest hskip happ]
          obtain ⟨ihmem, ihget⟩ := ih (recSet cov id ((recGet cov id).getD 0 + 1))
          constructor
          · intro i hi
            simp only [consTrace, List.mem_cons] at hi
            rcases hi with hi | hi
            · rw [hi]
              exact List.mem_map_of_mem (fun p : String × TestMeta τ => p.1) (List.Mem.head _)
            · exact List.Mem.tail _ (ihmem i hi)
          · intro j hj
            have hjrest : j ∉ (activeMeta rest).map (fun p => p.1) := by
              intro h
              exact hj (List.Mem.tail _ h)
            have hjid : j ≠ id := by
              intro h
              exact hj (h ▸ List.mem_map_of_mem (fun p : String × TestMeta τ => p.1) (List.Mem.head _))
            show recGet (testStateGo app ctx state rest
              (recSet cov id ((recGet cov id).getD 0 + 1))).1 j = recGet cov j
            rw [ihget j hjrest]
            simp [recGet_recSet, hjid]
      · rw [testStateGo_cons_skip app ctx state id rest cov hskip,
          activeMeta_cons_inactive id rest (Or.inr hskip)]
        exact ih cov

theorem testStateGo_allOk (app : τ → γ → MState τ → Except String Unit)
    (ctx : γ) (state : MState τ) (entries : List (String × TestMeta τ))
    (hnodup : (entries.map (fun p => p.1)).Nodup)
    (hok : ∀ id m t, (id, m) ∈ entries → m.test = some t → m.skip = false →
      app t ctx state = .ok ()) :
    ∀ cov,
      (testStateGo app ctx state entries cov).2.2 = .ok ()
      ∧ (testStateGo app ctx state entries cov).2.1 =
          (activeMeta entries).map (fun p => p.1)
      ∧ ∀ j, recGet (testStateGo app ctx state entries cov).1 j =
          if j ∈ (activeMeta entries).map (fun p => p.1)
          then some ((recGet cov j).getD 0 + 1) else recGet cov j := by
  induction entries with
  | nil =>
    intro cov
    refine ⟨rfl, rfl, fun j => ?_⟩
    simp [activeMeta, testStateGo]
  | cons p rest ih =>
    intro cov
    obtain ⟨id, m⟩ := p
    have hnotin : id ∉ rest.map (fun p => p.1) := (List.nodup_cons.mp hnodup).1
    have hnd : (rest.map (fun p => p.1)).Nodup := (List.nodup_cons.mp hnodup).2
    have hokRest : ∀ id' m' t', (id', m') ∈ rest → m'.test = some t' →
        m'.skip = false → app t' ctx state = .ok () :=
      fun id' m' t' hm => hok id' m' t' (List.Mem.tail _ hm)
    rcases htest : m.test with _ | t
    · rw [testStateGo_cons_none app ctx state id rest cov htest,
        activeMeta_cons_inactive id rest (Or.inl htest)]
      exact ih hnd hokRest cov
    · rcases hskip : m.skip with _ | _
      · have happ : app t ctx state = .ok () :=
          hok id m t (List.Mem.head _) htest hskip
        rw [testStateGo_cons_ok app ctx state id rest cov htest hskip happ,
          activeMeta_cons_active id rest htest hskip]
        obtain ⟨ihok, ihtr, ihget⟩ :=
          ih hnd hokRest (recSet cov id ((recGet cov id).getD 0 + 1))
        refine ⟨ihok, ?_, ?_⟩
        · simp only [consTrace, List.map_cons]
          rw [ihtr]
        · intro j
          show recGet (testStateGo app ctx state rest
            (recSet cov id ((recGet cov id).getD 0 + 1))).1 j = _
          rw [ihget j]
          by_cases hjid : j = id
          · have hjr : j ∉ (activeMeta rest).map (fun p => p.1) := by
              intro h
              exact hnotin (hjid ▸ mem_activeMeta_keys h)
            have hmem : j ∈ ((id, m) :: activeMeta rest).map (fun p => p.1) := by
              rw [hjid]
              exact List.mem_map_of_mem (fun p : String × TestMeta τ => p.1)
                (List.Mem.head _)
            rw [if_neg hjr, if_pos hmem, hjid, recGet_recSet, if_pos rfl]
          · have hiff : (j ∈ (activeMeta rest).map (fun p => p.1)) ↔
                (j ∈ ((id, m) :: activeMeta rest).map (fun p => p.1)) := by
              simp only [List.map_cons, List.mem_cons]
              constructor
              · exact Or.inr
              · rintro (h | h)
                · exact absurd h hjid
                · exact h
            have hcov' : recGet (recSet cov id ((recGet cov id).getD 0 + 1)) j
                = recGet cov j := by
              rw [recGet_recSet, if_neg hjid]
            by_cases hjr : j ∈ (activeMeta rest).map (fun p => p.1)
            · rw [if_pos hjr, if_pos (hiff.mp hjr), hcov']
            · rw [if_neg hjr, if_neg (fun h => hjr (hiff.mpr h)), hcov']
      · rw [testStateGo_cons_skip app ctx state id rest cov hskip,
          activeMeta_cons_inactive id rest (Or.inr hskip)]
        exact ih hnd hokRest cov

theorem testStateGo_err (app : τ → γ → MState τ → Except String Unit)
    (ctx : γ) (state : MState τ) (entries : List (String × TestMeta τ))
    (hnodup : (entries.map (fun p => p.1)).Nodup) :
    ∀ cov e,
      (testStateGo app ctx state entries cov).2.2 = .error e →
      ∃ id m t, (id, m) ∈ entries ∧ m.test = some t ∧ m.skip = false
        ∧ app t ctx state = .error e
        ∧ id ∈ (testStateGo app ctx state entries cov).2.1
        ∧ recGet (testStateGo app ctx state entries cov).1 id =
            some ((recGet cov id).getD 0 + 1) := by
  induction entries with
  | nil =>
    intro cov e h
    exact absurd h (by simp [testStateGo])
  | cons p rest ih =>
    intro cov e h
    obtain ⟨id, m⟩ := p
    have hnotin : id ∉ rest.map (fun p => p.1) := (List.nodup_cons.mp hnodup).1
    have hnd : (rest.map (fun p => p.1)).Nodup := (List.nodup_cons.mp hnodup).2
    rcases htest : m.test with _ | t
    · rw [testStateGo_cons_none app ctx state id rest cov htest] at h ⊢
      obtain ⟨id', m', t', hmem, h1, h2, h3, h4, h5⟩ := ih hnd cov e h
      exact ⟨id', m', t', List.Mem.tail _ hmem, h1, h2, h3, h4, h5⟩
    · rcases hskip : m.skip with _ | _
      · rcases happ : app t ctx state with e' | u
        · rw [testStateGo_cons_err app ctx state id rest cov htest hskip happ] at h ⊢
          have he : e' = e := by simpa using h
          subst he
          exact ⟨id, m, t, List.Mem.head _, htest, hskip, happ,
            List.Mem.head _, by simp [recGet_recSet]⟩
        · obtain ⟨⟩ := u
          rw [testStateGo_cons_ok app ctx state id rest cov htest hskip happ] at h ⊢
          simp only [consTrace] at h
          obtain ⟨id', m', t', hmem, h1, h2, h3, h4, h5⟩ :=
            ih hnd (recSet cov id ((recGet cov id).getD 0 + 1)) e h
          have hne : id' ≠ id := by
            intro hcontra
            apply hnotin
            rw [← hcontra]
            exact List.mem_map_of_mem (fun p : String × TestMeta τ => p.1) hmem
          refine ⟨id', m', t', List.Mem.tail _ hmem, h1, h2, h3, ?_, ?_⟩
          · exact List.Mem.tail _ h4
          · show recGet (testStateGo app ctx state rest
              (recSet cov id ((recGet cov id).getD 0 + 1))).1 id' = _
            rw [h5, recGet_recSet, if_neg hne]
      · rw [testStateGo_cons_skip app ctx state id rest cov hskip] at h ⊢
        obtain ⟨id', m', t', hmem, h1, h2, h3, h4, h5⟩ := ih hnd cov e h
        exact ⟨id', m', t', List.Mem.tail _ hmem, h1, h2, h3, h4, h5⟩

/-- C5: `testState(state, testContext)` walks the state's metadata
entries; an entry marked `skip` is never invoked and its counter is never
touched; when no invoked assertion rejects, every entry with a `test`
function and no `skip` mark has its counter incremented by exactly one
(created at 1 when absent, since `(get(id) || 0) + 1` is `1` then) and
its assertion invoked with `(testContext, state)`; any rejection is the
propagated outcome of invoking such an entry's assertion with
`(testContext, state)`, whose counter was already incremented. The
metadata record has unique keys (`Object.keys`), hence the `Nodup`
hypothesis. -/
theorem C5_testState_spec (app : τ → γ → MState τ → Except String Unit)
    (cov : List (String × Nat)) (state : MState τ) (ctx : γ)
    (hnodup : (state.meta.map (fun p => p.1)).Nodup) :
    (∀ id m, (id, m) ∈ state.meta → m.skip = true →
      id ∉ (testState app cov state ctx).2.1
      ∧ recGet (testState app cov state ctx).1 id = recGet cov id)
    ∧ ((∀ id m t, (id, m) ∈ state.meta → m.test = some t → m.skip = false →
          app t ctx state = .ok ()) →
        (testState app cov state ctx).2.2 = .ok ()
        ∧ (testState app cov state ctx).2.1 =
            (activeMeta state.meta).map (fun p => p.1)
        ∧ (∀ id m t, (id, m) ∈ state.meta → m.test = some t → m.skip = false →
            recGet (testState app cov state ctx).1 id =
              some ((recGet cov id).getD 0 + 1)))
    ∧ (∀ e, (testState app cov state ctx).2.2 = .error e →
        ∃ id m t, (id, m) ∈ state.meta ∧ m.test = some t ∧ m.skip = false
          ∧ app t ctx state = .error e
          ∧ id ∈ (testState app cov state ctx).2.1
          ∧ recGet (testState app cov state ctx).1 id =
              some ((recGet cov id).getD 0 + 1)) := by
  refine ⟨?_, ?_, ?_⟩
  · intro id m hmem hskip
    have hnotactive : id ∉ (activeMeta state.meta).map (fun p => p.1) := by
      intro hid
      rcases List.mem_map.mp hid with ⟨x, hx, hxid⟩
      have hxmeta : x ∈ state.meta := List.mem_of_mem_filter hx
      have hcond := List.of_mem_filter hx
      obtain ⟨xid, xm⟩ := x
      have hxid' : xid = id := hxid
      subst hxid'
      have : xm = m := nodup_key_eq hnodup hxmeta hmem
      subst this
      rw [hskip] at hcond
      simp at hcond
    obtain ⟨hmemsub, hget⟩ := testStateGo_frame app ctx state state.meta cov
    exact ⟨fun hin => hnotactive (hmemsub id hin), hget id hnotactive⟩
  · intro hok
    obtain ⟨h1, h2, h3⟩ := testStateGo_allOk app ctx state state.meta hnodup hok cov
    refine ⟨h1, h2, ?_⟩
    intro id m t hmem htest hskip
    have hactive : id ∈ (activeMeta state.meta).map (fun p => p.1) := by
      have hmf : (id, m) ∈ activeMeta state.meta :=
        List.mem_filter.mpr ⟨hmem, by simp [htest, hskip]⟩
      exact List.mem_map_of_mem (fun p : String × TestMeta τ => p.1) hmf
    show recGet (testStateGo app ctx state state.meta cov).1 id =
      some ((recGet cov id).getD 0 + 1)
    rw [h3 id, if_pos hactive]
  · intro e he
    exact testStateGo_err app ctx state state.meta hnodup cov e he

/-- The interpretation of assertion tokens used by the concrete `testState`
scenario: a token is just the outcome its invocation produces. -/
def c5AppW : Except String Unit → Unit → MState (Except String Unit) →
    Except String Unit := fun t _ _ => t

/-- A concrete state whose metadata has one active test entry (`n1`), one
skipped test entry (`n2`, the spec's `{test: fn, skip: true}` scenario)
and one entry without a test (`n3`). -/
def c5StateW : MState (Except String Unit) :=
  { value := "s"
    context := none
    matchesP := fun _ => true
    meta := [("n1", { test := some (.ok ()), skip := false }),
             ("n2", { test := some (.ok ()), skip := true }),
             ("n3", { test := none, skip := false })] }

/-- A concrete starting coverage `Map` with `n1` already at 4. -/
def c5CovW : List (String × Nat) := [("n1", 4)]

/-- Witness for C5: on the concrete scenario the skipped node `n2` is
never invoked and keeps its (absent) counter; only `n1` is invoked; `n1`'s
counter goes from 4 to 5. -/
theorem C5_testState_witness :
    "n2" ∉ (testState c5AppW c5CovW c5StateW ()).2.1
    ∧ recGet (testState c5AppW c5CovW c5StateW ()).1 "n2" = recGet c5CovW "n2"
    ∧ (testState c5AppW c5CovW c5StateW ()).2.1 = ["n1"]
    ∧ recGet (testState c5AppW c5CovW c5StateW ()).1 "n1" = some 5 := by
  have h := C5_testState_spec c5AppW c5CovW c5StateW () (by decide)
  obtain ⟨hA, hB, _⟩ := h
  have hAllOk : ∀ id m t, (id, m) ∈ c5StateW.meta → m.test = some t →
      m.skip = false → c5AppW t () c5StateW = .ok () := by
    intro id m t hmem htest hskip
    simp only [c5StateW, List.mem_cons, List.not_mem_nil, or_false] at hmem
    rcases hmem with h | h | h
    · obtain ⟨h1, h2⟩ := Prod.mk.injEq .. ▸ h
      subst h2
      have ht : Except.ok () = t := Option.some.inj htest
      subst ht
      rfl
    · obtain ⟨h1, h2⟩ := Prod.mk.injEq .. ▸ h
      subst h2
      exact Bool.noConfusion hskip
    · obtain ⟨h1, h2⟩ := Prod.mk.injEq .. ▸ h
      subst h2
      exact Option.noConfusion htest
  obtain ⟨hskipA, hskipB⟩ := hA "n2" { test := some (.ok ()), skip := true }
    (List.Mem.tail _ (List.Mem.head _)) rfl
  obtain ⟨_, htr, hcnt⟩ := hB hAllOk
  refine ⟨hskipA, hskipB, htr.trans rfl, ?_⟩
  have := hcnt "n1" { test := some (.ok ()), skip := false } (.ok ())
    (List.Mem.head _) rfl rfl
  exact this.trans rfl

/-- Lookup of an event-type key in the configured events record
(`this.options.events[event.type]`). -/
def lookupEvent (events : List (String × EventConfig ε)) (ty : String) :
    Option (EventConfig ε) :=
  (events.find? (fun p => p.1 == ty)).map (fun p => p.2)

/-- `TestModel.getEventExecutor(event)`: look up the event's type in the
configured events; when absent, warn (`console.warn`, modelled as the
returned list of emitted warning lines) and yield no executor; a bare
function is its own executor; a record contributes its optional `exec`
field. -/
def getEventExecutor (events : List (String × EventConfig ε))
    (event : EventObj) : Option ε × List String :=
  match lookupEvent events event.type with
  | none => (none, ["Missing config for event \"" ++ event.type ++ "\"."])
  | some (.fn f) => (some f, [])
  | some (.record r) => (r.exec, [])

/-- `TestModel.executeEvent(event, testContext)`: resolve the executor
and, only when one is present, invoke it with `(testContext, event)` (via
`appE`, which interprets an opaque executor token). Returns the outcome,
the emitted warnings, and whether an executor was invoked. -/
def executeEvent (appE : ε → γ → EventObj → Except String Unit)
    (events : List (String × EventConfig ε)) (event : EventObj) (ctx : γ) :
    Except String Unit × List String × Bool :=
  match getEventExecutor events event with
  | (some f, warns) => (appE f ctx event, warns, true)
  | (none, warns) => (.ok (), warns, false)

/-- C7: an event whose type is not configured makes `getEventExecutor`
emit the warning and return no executor, and `executeEvent` then
completes without error and without invoking any executor; a configured
record without an `exec` field gives the same no-op outcome (without a
warning). -/
theorem C7_executeEvent_spec (appE : ε → γ → EventObj → Except String Unit)
    (events : List (String × EventConfig ε)) (event : EventObj) (ctx : γ) :
    (lookupEvent events event.type = none →
      getEventExecutor events event =
        (none, ["Missing config for event \"" ++ event.type ++ "\"."])
      ∧ executeEvent appE events event ctx =
          (.ok (), ["Missing config for event \"" ++ event.type ++ "\"."], false))
    ∧ (∀ r : EventCaseRecord ε,
        lookupEvent events event.type = some (.record r) → r.exec = none →
        getEventExecutor events event = (none, [])
        ∧ executeEvent appE events event ctx = (.ok (), [], false)) := by
  constructor
  · intro h
    constructor
    · simp [getEventExecutor, h]
    · simp [executeEvent, getEventExecutor, h]
  · intro r h hexec
    constructor
    · simp [getEventExecutor, h, hexec]
    · simp [executeEvent, getEventExecutor, h, hexec]

/-- A trivial executor-token interpretation for the concrete scenarios. -/
def c7AppW : Unit → Unit → EventObj → Except String Unit :=
  fun _ _ _ => .ok ()

/-- A concrete event configuration with one record entry lacking `exec`. -/
def c7EventsW : List (String × EventConfig Unit) :=
  [("KNOWN", .record { exec := none, cases := none })]

/-- Witness for C7: the unconfigured `MISSING` event warns and no-ops;
the configured `KNOWN` record without `exec` no-ops without warning. -/
theorem C7_executeEvent_witness :
    executeEvent c7AppW c7EventsW { type := "MISSING", payload := [] } () =
      (.ok (), ["Missing config for event \"MISSING\"."], false)
    ∧ executeEvent c7AppW c7EventsW { type := "KNOWN", payload := [] } () =
      (.ok (), [], false) := by
  constructor
  · exact ((C7_executeEvent_spec c7AppW c7EventsW
      { type := "MISSING", payload := [] } ()).1 rfl).2
  · exact ((C7_executeEvent_spec c7AppW c7EventsW
      { type := "KNOWN", payload := [] } ()).2
      { exec := none, cases := none } rfl rfl).2

/-- `getEventSamples(eventsOptions)`: walk the configured keys in order;
a bare function pushes the single sample `{type: key}`; a record with
`cases` pushes one sample per case, `{type: key, ...sample}` (the case
payload joined to the key); a record without `cases` pushes the single
bare sample. -/
def getEventSamples : List (String × EventConfig ε) → List EventObj
  | [] => []
  | (key, eventConfig) :: rest =>
    (match eventConfig with
     | .fn _ => [{ type := key, payload := [] }]
     | .record r =>
       match r.cases with
       | some cs => cs.map (fun sample => { type := key, payload := sample })
       | none => [{ type := key, payload := [] }]) ++ getEventSamples rest

/-- The per-key expansion described by the spec, for comparison with the
implementation's accumulating loop. -/
def eventSamplesSpec (eventsOptions : List (String × EventConfig ε)) :
    List EventObj :=
  eventsOptions.flatMap (fun p =>
    match p.2 with
    | .fn _ => [{ type := p.1, payload := [] }]
    | .record r =>
      match r.cases with
      | some cs => cs.map (fun sample => { type := p.1, payload := sample })
      | none => [{ type := p.1, payload := [] }])

/-- C8: `getEventSamples` emits, per key in order: one `{type: key}`
sample for a bare function; one merged sample per case for a record with
`cases` (so an empty `cases` list yields none); a single bare sample for
a record without `cases`; and the empty configuration yields the empty
list. The function is total: no error in any case. -/
theorem C8_getEventSamples_spec (eventsOptions : List (String × EventConfig ε)) :
    getEventSamples eventsOptions = eventSamplesSpec eventsOptions
    ∧ getEventSamples ([] : List (String × EventConfig ε)) = []
    ∧ (∀ (key : String) (f : ε) (rest : List (String × EventConfig ε)),
        getEventSamples ((key, .fn f) :: rest) =
          { type := key, payload := [] } :: getEventSamples rest)
    ∧ (∀ (key : String) (r : EventCaseRecord ε)
        (cs : List (List (String × String)))
        (rest : List (String × EventConfig ε)), r.cases = some cs →
        getEventSamples ((key, .record r) :: rest) =
          cs.map (fun sample => { type := key, payload := sample })
            ++ getEventSamples rest)
    ∧ (∀ (key : String) (r : EventCaseRecord ε)
        (rest : List (String × EventConfig ε)), r.cases = none →
        getEventSamples ((key, .record r) :: rest) =
          { type := key, payload := [] } :: getEventSamples rest) := by
  refine ⟨?_, rfl, fun key f rest => rfl, ?_, ?_⟩
  · induction eventsOptions with
    | nil => rfl
    | cons p rest ih =>
      obtain ⟨key, c⟩ := p
      show (match c with
        | .fn _ => [{ type := key, payload := [] }]
        | .record r =>
          match r.cases with
          | some cs => cs.map (fun sample => { type := key, payload := sample })
          | none => [{ type := key, payload := [] }]) ++ getEventSamples rest = _
      rw [ih]
      rfl
  · intro key r cs rest hcs
    show (match r.cases with
      | some cs => cs.map (fun sample => { type := key, payload := sample })
      | none => [{ type := key, payload := [] }]) ++ getEventSamples rest = _
    rw [hcs]
  · intro key r rest hcs
    show (match r.cases with
      | some cs => cs.map (fun sample => { type := key, payload := sample })
      | none => [{ type := key, payload := [] }]) ++ getEventSamples rest = _
    rw [hcs]
    rfl

/-- A concrete event configuration exercising all three sample shapes. -/
def c8EventsW : List (String × EventConfig Unit) :=
  [("A", .fn ()),
   ("B", .record { exec := none, cases := some [[("x", "1")], [("x", "2")]] }),
   ("C", .record { exec := none, cases := none })]

/-- Witness for C8 at a concrete configuration: one bare sample for `A`,
one merged sample per case for `B`, one bare sample for `C`, in key
order. -/
theorem C8_getEventSamples_witness :
    getEventSamples c8EventsW =
      [{ type := "A", payload := [] },
       { type := "B", payload := [("x", "1")] },
       { type := "B", payload := [("x", "2")] },
       { type := "C", payload := [] }] := by
  have h := (C8_getEventSamples_spec c8EventsW).2.2.2.1 "B"
    { exec := none, cases := some [[("x", "1")], [("x", "2")]] }
    [[("x", "1")], [("x", "2")]]
    [("C", .record { exec := none, cases := none })] rfl
  show getEventSamples ([("A", .fn ())] ++
    (("B", .record { exec := none, cases := some [[("x", "1")], [("x", "2")]] }) ::
      [("C", .record { exec := none, cases := none })])) = _
  rw [show getEventSamples ([("A", EventConfig.fn ())] ++
    (("B", EventConfig.record { exec := none, cases := some [[("x", "1")], [("x", "2")]] }) ::
      [("C", EventConfig.record { exec := none, cases := none })])) =
    { type := "A", payload := [] } ::
      getEventSamples (("B", EventConfig.record
        { exec := none, cases := some [[("x", "1")], [("x", "2")]] }) ::
        [("C", EventConfig.record { exec := none, cases := none })]) from rfl]
  rw [h]
  rfl

/-- A compiled step of a path as the path's `test` closure consumes it:
the raw step plus the awaited outcomes of its `test` assertion
(`this.testState(step.state, testContext)`) and of its `exec` executor
(`this.executeEvent(step.event, testContext)`) at the given test
context. -/
structure CompiledStep (τ : Type) where
  step : PStep τ
  testR : Except String Unit
  execR : Except String Unit

/-- `TestStepResult`: per-step record of the assertion error
(`state.error`) and the executor error (`event.error`). -/
structure TestStepResult (τ : Type) where
  step : PStep τ
  stateError : Option String
  eventError : Option String

/-- `TestPathResult`: the ordered step results plus the terminal-state
assertion error (`state.error`). -/
structure TestPathResult (τ : Type) where
  steps : List (TestStepResult τ)
  stateError : Option String

/-- A step result with both error fields unset, as pushed at the start of
each loop iteration. -/
def cleanStep (s : CompiledStep τ) : TestStepResult τ :=
  { step := s.step, stateError := none, eventError := none }

/-- The `for (const step of steps)` loop of the path `test` closure: push
a fresh result, run the step's `test` (recording a rejection in
`state.error` and rethrowing), then the step's `exec` (recording in
`event.error` and rethrowing). On a rejection the error and the recorded
steps so far are carried out of the loop. -/
def runPathSteps : List (CompiledStep τ) → List (TestStepResult τ) →
    Except (String × List (TestStepResult τ)) (List (TestStepResult τ))
  | [], acc => .ok acc
  | s :: rest, acc =>
    match s.testR with
    | .error e =>
      .error (e, acc ++ [{ step := s.step, stateError := some e, eventError := none }])
    | .ok _ =>
      match s.execR with
      | .error e =>
        .error (e, acc ++ [{ step := s.step, stateError := none, eventError := some e }])
      | .ok _ => runPathSteps rest (acc ++ [cleanStep s])

/-- The try-block of the path `test` closure: the step loop followed by
the terminal-state assertion (whose awaited outcome is `terminalR`),
recording a terminal rejection in the path result's `state.error`. -/
def pathTestRun (steps : List (CompiledStep τ)) (terminalR : Except String Unit) :
    Except (String × TestPathResult τ) (TestPathResult τ) :=
  match runPathSteps steps [] with
  | .error (e, recorded) => .error (e, { steps := recorded, stateError := none })
  | .ok recorded =>
    match terminalR with
    | .error e => .error (e, { steps := recorded, stateError := some e })
    | .ok _ => .ok { steps := recorded, stateError := none }

/-- `${JSON.stringify(state.value)} ${context === undefined ? '' :
JSON.stringify(context)}` as rendered in the catch block. -/
def stateStr (s : MState τ) : String :=
  stringify s.value ++ " " ++
    (match s.context with
     | none => ""
     | some c => stringify c)

/-- `JSON.stringify` of an event object: its `type` field followed by the
payload fields. -/
def eventStr (e : EventObj) : String :=
  "\x7b" ++ String.intercalate ","
    ((("type", e.type) :: e.payload).map
      (fun kv => stringify kv.1 ++ ":" ++ stringify kv.2)) ++ "\x7d"

/-- One step's `State:`/`Event:` line pair of the failure trace, threading
the `hasFailed` flag exactly as the closure's mutation does: gray once a
failure was already recorded, red-bright/red at the first failing entry,
green otherwise. `chalk` is the external `slimChalk` string-decoration
capability (modelled from the spec as an opaque pure function). -/
def stepLines (chalk : String → String → String) (s : TestStepResult τ)
    (hasFailed : Bool) : String × Bool :=
  let stateString := stateStr s.step.state
  let eventString := eventStr s.step.event
  let stateResult :=
    if hasFailed then ("\tState: " ++ chalk "gray" stateString, true)
    else
      match s.stateError with
      | some _ => ("\tState: " ++ chalk "redBright" stateString, true)
      | none => ("\tState: " ++ chalk "greenBright" stateString, false)
  let eventResult :=
    if stateResult.2 then ("\tEvent: " ++ chalk "gray" eventString, true)
    else
      match s.eventError with
      | some _ => ("\tEvent: " ++ chalk "red" eventString, true)
      | none => ("\tEvent: " ++ chalk "green" eventString, false)
  (stateResult.1 ++ "\n" ++ eventResult.1, eventResult.2)

/-- The mapped step line pairs of the trace, with the `hasFailed` flag
threaded left to right. -/
def traceLines (chalk : String → String → String) :
    List (TestStepResult τ) → Bool → List String × Bool
  | [], hf => ([], hf)
  | s :: rest, hf =>
    ((stepLines chalk s hf).1 :: (traceLines chalk rest (stepLines chalk s hf).2).1,
      (traceLines chalk rest (stepLines chalk s hf).2).2)

/-- The terminal `State:` line of the trace. -/
def terminalLine (chalk : String → String → String) (target : String)
    (hf : Bool) (stateError : Option String) : String :=
  if hf then "\tState: " ++ chalk "gray" target
  else
    match stateError with
    | some _ => "\tState: " ++ chalk "red" target
    | none => "\tState: " ++ chalk "green" target

/-- The `'\nPath:\n' + ...join('\n\n')` diagnostic appended to a thrown
error's message by the catch block. -/
def pathTrace (chalk : String → String → String) (pathState : MState τ)
    (result : TestPathResult τ) : String :=
  "\nPath:\n" ++ String.intercalate "\n\n"
    ((traceLines chalk result.steps false).1 ++
      [terminalLine chalk (stateStr pathState)
        (traceLines chalk result.steps false).2 result.stateError])

/-- The whole path `test` closure: on success return the completed
`TestPathResult`; on any rejection append the trace to the error's
message and rethrow (the `.error` case carries the rewritten message
together with the recorded result for observation — the closure itself
returns nothing to its caller on failure). -/
def pathTest (chalk : String → String → String) (pathState : MState τ)
    (steps : List (CompiledStep τ)) (terminalR : Except String Unit) :
    Except (String × TestPathResult τ) (TestPathResult τ) :=
  match pathTestRun steps terminalR with
  | .ok r => .ok r
  | .error (e, recorded) =>
    .error (e ++ pathTrace chalk pathState recorded, recorded)

theorem runPathSteps_ok (steps : List (CompiledStep τ))
    (h : ∀ s ∈ steps, s.testR = .ok () ∧ s.execR = .ok ()) :
    ∀ acc, runPathSteps steps acc = .ok (acc ++ steps.map cleanStep) := by
  induction steps with
  | nil => intro acc; simp [runPathSteps]
  | cons s rest ih =>
    intro acc
    obtain ⟨h1, h2⟩ := h s (List.Mem.head _)
    have hrest : ∀ x ∈ rest, x.testR = .ok () ∧ x.execR = .ok () :=
      fun x hx => h x (List.Mem.tail _ hx)
    simp only [runPathSteps, h1, h2]
    rw [ih hrest (acc ++ [cleanStep s])]
    simp

theorem runPathSteps_ok_inv (steps : List (CompiledStep τ)) :
    ∀ acc r, runPathSteps steps acc = .ok r →
      (∀ s ∈ steps, s.testR = .ok () ∧ s.execR = .ok ())
      ∧ r = acc ++ steps.map cleanStep := by
  induction steps with
  | nil =>
    intro acc r h
    refine ⟨fun s hs => absurd hs (List.not_mem_nil s), ?_⟩
    simp [runPathSteps] at h
    simp [h.symm]
  | cons s rest ih =>
    intro acc r h
    rcases ht : s.testR with e | u
    · rw [show runPathSteps (s :: rest) acc =
        .error (e, acc ++ [{ step := s.step, stateError := some e, eventError := none }])
        from by simp [runPathSteps, ht]] at h
      exact absurd h (by simp)
    · obtain ⟨⟩ := u
      rcases hx : s.execR with e | u
      · rw [show runPathSteps (s :: rest) acc =
          .error (e, acc ++ [{ step := s.step, stateError := none, eventError := some e }])
          from by simp [runPathSteps, ht, hx]] at h
        exact absurd h (by simp)
      · obtain ⟨⟩ := u
        rw [show runPathSteps (s :: rest) acc =
          runPathSteps rest (acc ++ [cleanStep s]) from by simp [runPathSteps, ht, hx]] at h
        obtain ⟨hall, hr⟩ := ih (acc ++ [cleanStep s]) r h
        refine ⟨?_, ?_⟩
        · intro x hx'
          rcases List.mem_cons.mp hx' with he | hm
          · rw [he]; exact ⟨ht, hx⟩
          · exact hall x hm
        · rw [hr]; simp

theorem runPathSteps_err_test (pre : List (CompiledStep τ))
    (s : CompiledStep τ) (post : List (CompiledStep τ)) (e : String)
    (hpre : ∀ x ∈ pre, x.testR = .ok () ∧ x.execR = .ok ())
    (he : s.testR = .error e) :
    ∀ acc, runPathSteps (pre ++ s :: post) acc =
      .error (e, acc ++ pre.map cleanStep ++
        [{ step := s.step, stateError := some e, eventError := none }]) := by
  induction pre with
  | nil => intro acc; simp [runPathSteps, he]
  | cons x rest ih =>
    intro acc
    obtain ⟨h1, h2⟩ := hpre x (List.Mem.head _)
    have hrest : ∀ y ∈ rest, y.testR = .ok () ∧ y.execR = .ok () :=
      fun y hy => hpre y (List.Mem.tail _ hy)
    simp only [List.cons_append, runPathSteps, h1, h2]
    rw [List.append_eq, ih hrest (acc ++ [cleanStep x])]
    simp

theorem runPathSteps_err_exec (pre : List (CompiledStep τ))
    (s : CompiledStep τ) (post : List (CompiledStep τ)) (e : String)
    (hpre : ∀ x ∈ pre, x.testR = .ok () ∧ x.execR = .ok ())
    (ht : s.testR = .ok ()) (he : s.execR = .error e) :
    ∀ acc, runPathSteps (pre ++ s :: post) acc =
      .error (e, acc ++ pre.map cleanStep ++
        [{ step := s.step, stateError := none, eventError := some e }]) := by
  induction pre with
  | nil => intro acc; simp [runPathSteps, ht, he]
  | cons x rest ih =>
    intro acc
    obtain ⟨h1, h2⟩ := hpre x (List.Mem.head _)
    have hrest : ∀ y ∈ rest, y.testR = .ok () ∧ y.execR = .ok () :=
      fun y hy => hpre y (List.Mem.tail _ hy)
    simp only [List.cons_append, runPathSteps, h1, h2]
    rw [List.append_eq, ih hrest (acc ++ [cleanStep x])]
    simp

/-- C6: the path `test` closure returns a completed `TestPathResult`
exactly when every step's assertion, every step's executor and the
terminal-state assertion succeed (and then every recorded error field is
unset); when the first failure is a step assertion the recorded step's
`state.error` is set, when it is a step executor the recorded step's
`event.error` is set, and when it is the terminal assertion the path
result's `state.error` is set — in each case the original error is
rethrown with the path trace appended to its message and no result is
returned. -/
theorem C6_pathTest_spec (chalk : String → String → String)
    (pathState : MState τ) (steps : List (CompiledStep τ))
    (terminalR : Except String Unit) :
    (((∀ s ∈ steps, s.testR = .ok () ∧ s.execR = .ok ()) ∧ terminalR = .ok ()) →
      pathTest chalk pathState steps terminalR =
        .ok { steps := steps.map cleanStep, stateError := none })
    ∧ (∀ r, pathTest chalk pathState steps terminalR = .ok r →
        ((∀ s ∈ steps, s.testR = .ok () ∧ s.execR = .ok ()) ∧ terminalR = .ok ())
        ∧ r = { steps := steps.map cleanStep, stateError := none })
    ∧ (∀ pre s post e, steps = pre ++ s :: post →
        (∀ x ∈ pre, x.testR = .ok () ∧ x.execR = .ok ()) →
        s.testR = .error e →
        pathTest chalk pathState steps terminalR =
          .error (e ++ pathTrace chalk pathState
              { steps := pre.map cleanStep ++
                  [{ step := s.step, stateError := some e, eventError := none }]
                stateError := none },
            { steps := pre.map cleanStep ++
                [{ step := s.step, stateError := some e, eventError := none }]
              stateError := none }))
    ∧ (∀ pre s post e, steps = pre ++ s :: post →
        (∀ x ∈ pre, x.testR = .ok () ∧ x.execR = .ok ()) →
        s.testR = .ok () → s.execR = .error e →
        pathTest chalk pathState steps terminalR =
          .error (e ++ pathTrace chalk pathState
              { steps := pre.map cleanStep ++
                  [{ step := s.step, stateError := none, eventError := some e }]
                stateError := none },
            { steps := pre.map cleanStep ++
                [{ step := s.step, stateError := none, eventError := some e }]
              stateError := none }))
    ∧ (∀ e, (∀ s ∈ steps, s.testR = .ok () ∧ s.execR = .ok ()) →
        terminalR = .error e →
        pathTest chalk pathState steps terminalR =
          .error (e ++ pathTrace chalk pathState
              { steps := steps.map cleanStep, stateError := some e },
            { steps := steps.map cleanStep, stateError := some e })) := by
  refine ⟨?_, ?_, ?_, ?_, ?_⟩
  · rintro ⟨hall, hterm⟩
    have hrun := runPathSteps_ok steps hall []
    simp only [pathTest, pathTestRun, hrun, hterm]
    simp
  · intro r hr
    rcases hrun : runPathSteps steps [] with p | recorded
    · obtain ⟨e, rec0⟩ := p
      simp only [pathTest, pathTestRun, hrun] at hr
      exact absurd hr (by simp)
    · obtain ⟨hall, hrec⟩ := runPathSteps_ok_inv steps [] recorded hrun
      rcases hterm : terminalR with e | u
      · simp only [pathTest, pathTestRun, hrun, hterm] at hr
        exact absurd hr (by simp)
      · obtain ⟨⟩ := u
        simp only [pathTest, pathTestRun, hrun, hterm] at hr
        have hr' : r = { steps := recorded, stateError := none } := by
          simpa using hr.symm
        refine ⟨⟨hall, rfl⟩, ?_⟩
        rw [hr', hrec]
        simp
  · intro pre s post e hsteps hpre he
    have hrun := runPathSteps_err_test pre s post e hpre he []
    rw [← hsteps] at hrun
    simp only [pathTest, pathTestRun, hrun]
    simp
  · intro pre s post e hsteps hpre ht he
    have hrun := runPathSteps_err_exec pre s post e hpre ht he []
    rw [← hsteps] at hrun
    simp only [pathTest, pathTestRun, hrun]
    simp
  · intro e hall hterm
    have hrun := runPathSteps_ok steps hall []
    simp only [pathTest, pathTestRun, hrun, hterm]
    simp

/-- Plain-text decoration: `slimChalk` degrading to the identity (the
spec's "degrading to plain text when colors are unsupported"). -/
def c6Chalk : String → String → String := fun _ s => s

/-- A concrete passing compiled step. -/
def c6StepA : CompiledStep Unit :=
  { step := { state := stubState "a", event := toggleEvent }
    testR := .ok (), execR := .ok () }

/-- A concrete compiled step whose assertion rejects. -/
def c6StepB : CompiledStep Unit :=
  { step := { state := stubState "b", event := toggleEvent }
    testR := .error "boom", execR := .ok () }

/-- Witness for C6: an all-passing path returns the completed clean
result; a path whose second step's assertion rejects records that step's
state error and rethrows the error with the trace appended. -/
theorem C6_pathTest_witness :
    pathTest c6Chalk (stubState "end") [c6StepA] (.ok ()) =
      .ok { steps := [c6StepA].map cleanStep, stateError := none }
    ∧ pathTest c6Chalk (stubState "end") [c6StepA, c6StepB] (.ok ()) =
      .error ("boom" ++ pathTrace c6Chalk (stubState "end")
          { steps := [c6StepA].map cleanStep ++
              [{ step := c6StepB.step, stateError := some "boom", eventError := none }]
            stateError := none },
        { steps := [c6StepA].map cleanStep ++
            [{ step := c6StepB.step, stateError := some "boom", eventError := none }]
          stateError := none }) := by
  constructor
  · exact (C6_pathTest_spec c6Chalk (stubState "end") [c6StepA] (.ok ())).1
      ⟨by intro s hs; rw [List.mem_singleton.mp hs]; exact ⟨rfl, rfl⟩, rfl⟩
  · exact (C6_pathTest_spec c6Chalk (stubState "end") [c6StepA, c6StepB] (.ok ())).2.2.1
      [c6StepA] c6StepB [] "boom" rfl
      (by intro x hx; rw [List.mem_singleton.mp hx]; exact ⟨rfl, rfl⟩) rfl

/-- The observable execution of one compiled path's `test` at a given
test context: the ordered effects it performs while running (its trace)
and the outcome its promise settles with. -/
structure PathExec (α : Type) where
  trace : List α
  result : Except String Unit

/-- The plan's `test` entry point:
`for (const path of paths) { await path.test(testContext); }` — each
path's `test` is awaited to completion before the next starts, and a
rejection aborts the loop and propagates. Returns the effects performed,
in order, and the outcome. -/
def planTest : List (PathExec α) → List α × Except String Unit
  | [] => ([], .ok ())
  | p :: rest =>
    match p.result with
    | .ok _ => (p.trace ++ (planTest rest).1, (planTest rest).2)
    | .error e => (p.trace, .error e)

/-- C9: the plan's `test` runs its paths strictly in sequence — when all
paths succeed, the performed effects are exactly the concatenation of
each path's own effects in path order (so each path's execution fully
completes before the next path's begins), and the plan resolves; a
rejecting path aborts the sequence after its own effects, so no later
path's effects occur. -/
theorem planTest_all_ok (paths : List (PathExec α))
    (hall : ∀ p ∈ paths, p.result = .ok ()) :
    planTest paths = (paths.flatMap (fun p => p.trace), .ok ()) := by
  induction paths with
  | nil => rfl
  | cons p rest ih =>
    have h1 := hall p (List.Mem.head _)
    have hrest : ∀ x ∈ rest, x.result = .ok () :=
      fun x hx => hall x (List.Mem.tail _ hx)
    simp only [planTest, h1]
    rw [ih hrest]
    simp

theorem planTest_err (p : PathExec α) (post : List (PathExec α)) (e : String)
    (herr : p.result = .error e) :
    ∀ pre : List (PathExec α), (∀ x ∈ pre, x.result = .ok ()) →
      planTest (pre ++ p :: post) =
        (pre.flatMap (fun x => x.trace) ++ p.trace, .error e) := by
  intro pre
  induction pre with
  | nil =>
    intro _
    simp [planTest, herr]
  | cons x rest ih =>
    intro hpre
    have h1 := hpre x (List.Mem.head _)
    have hrest : ∀ y ∈ rest, y.result = .ok () :=
      fun y hy => hpre y (List.Mem.tail _ hy)
    simp only [List.cons_append, planTest, h1]
    rw [List.append_eq, ih hrest]
    simp

/-- C9: the plan's `test` runs its paths strictly in sequence — when all
paths succeed, the performed effects are exactly the concatenation of
each path's own effects in path order (each path's execution fully
completes before the next path's begins) and the plan resolves; a
rejecting path aborts the sequence after its own effects, so no later
path's effects occur. -/
theorem C9_planTest_spec (paths : List (PathExec α)) :
    ((∀ p ∈ paths, p.result = .ok ()) →
      planTest paths = (paths.flatMap (fun p => p.trace), .ok ()))
    ∧ (∀ pre p post e, paths = pre ++ p :: post →
        (∀ x ∈ pre, x.result = .ok ()) → p.result = .error e →
        planTest paths =
          (pre.flatMap (fun x => x.trace) ++ p.trace, .error e)) := by
  constructor
  · exact planTest_all_ok paths
  · intro pre p post e hpaths hpre herr
    rw [hpaths]
    exact planTest_err p post e herr pre hpre

/-- Witness for C9 on concrete paths (effects are numbered): two passing
paths concatenate their effects in order; with a failing middle path the
third path's effects never occur. -/
theorem C9_planTest_witness :
    planTest [⟨[1, 2], .ok ()⟩, ⟨[3], .ok ()⟩] = ([1, 2, 3], .ok ())
    ∧ planTest [⟨[1], .ok ()⟩, ⟨[2], .error "fail"⟩, ⟨[3], .ok ()⟩] =
        ([1, 2], .error "fail") := by
  constructor
  · have h := (C9_planTest_spec [(⟨[1, 2], .ok ()⟩ : PathExec Nat), ⟨[3], .ok ()⟩]).1
      (by intro p hp
          rcases List.mem_cons.mp hp with h | h
          · rw [h]
          · rw [List.mem_singleton.mp h])
    rw [h]
    rfl
  · have h := (C9_planTest_spec
      [(⟨[1], .ok ()⟩ : PathExec Nat), ⟨[2], .error "fail"⟩, ⟨[3], .ok ()⟩]).2
      [⟨[1], .ok ()⟩] ⟨[2], .error "fail"⟩ [⟨[3], .ok ()⟩] "fail" rfl
      (by intro x hx; rw [List.mem_singleton.mp hx]) rfl
    rw [h]
    rfl

/-- The partial options argument of the `TestModel` constructor
(`Partial<TestModelOptions>`). -/
structure PartialTestModelOptions (ε : Type) where
  events : Option (List (String × EventConfig ε))

/-- `TestModel.defaultOptions`: an empty event mapping. -/
def defaultOptions : TestModelOptions ε := { events := [] }

/-- The `TestModel` constructor: a fresh, empty coverage accumulator and
options built by spreading the defaults and then the caller's partial
options over them. -/
def mkTestModel (machine : MachineM τ)
    (options : Option (PartialTestModelOptions ε)) : TModel τ ε :=
  { machine := machine
    options :=
      { events :=
          match options with
          | none => (defaultOptions (ε := ε)).events
          | some o =>
            match o.events with
            | some ev => ev
            | none => (defaultOptions (ε := ε)).events }
    coverage := { stateNodes := [], transitions := [] } }

/-- `TestModel.withEvents(eventMap)`: construct a new `TestModel` over
the same machine with options `{ events: eventMap }`. -/
def withEvents (model : TModel τ ε)
    (eventMap : List (String × EventConfig ε)) : TModel τ ε :=
  mkTestModel model.machine (some { events := some eventMap })

/-- C10: `withEvents(eventMap)` yields a fresh instance over the very
same machine, whose configured events are exactly `eventMap` and whose
coverage accumulator starts empty; the construction reads nothing but the
machine from the original instance (any instance with the same machine
yields the same new instance), so the original's options and accumulated
counters play no role in — and, the embedding being state-passing, are
untouched by and isolated from — the new instance. -/
theorem C10_withEvents_spec (model : TModel τ ε)
    (eventMap : List (String × EventConfig ε)) :
    (withEvents model eventMap).machine = model.machine
    ∧ (withEvents model eventMap).options.events = eventMap
    ∧ (withEvents model eventMap).coverage =
        { stateNodes := [], transitions := [] }
    ∧ (∀ model' : TModel τ ε, model'.machine = model.machine →
        withEvents model' eventMap = withEvents model eventMap) := by
  refine ⟨rfl, rfl, rfl, ?_⟩
  intro model' h
  unfold withEvents
  rw [h]

/-- Witness for C10: the new instance carries exactly the given event
map and empty coverage, and two instances differing only in options and
accumulated coverage produce identical new instances. -/
theorem C10_withEvents_witness :
    (withEvents covModelC3 c7EventsW).options.events = c7EventsW
    ∧ (withEvents covModelC3 c7EventsW).coverage =
        { stateNodes := [], transitions := [] }
    ∧ withEvents covModelOk c7EventsW = withEvents covModelC3 c7EventsW := by
  refine ⟨(C10_withEvents_spec covModelC3 c7EventsW).2.1,
    (C10_withEvents_spec covModelC3 c7EventsW).2.2.1, ?_⟩
  exact (C10_withEvents_spec covModelC3 c7EventsW).2.2.2 covModelOk rfl
